import Mathlib

/-!
Shallow embedding of `operon-finder.py`: a script that parses a genomic
neighborhood context table, groups consecutive rows by query, chains genes
into operon clusters by intergenic distance, and reports clusters that
contain the query gene together with at least one other protein.

Modelling conventions:
* Python dict rows become the structure `GeneRecord`.
* Python `int(...)`, which raises `ValueError` on bad input, is modelled by
  `pyParseInt : String → Option Int`; the uncaught exception is modelled by
  the `Except Unit` monad (`Except.error ()` = uncaught `ValueError`).
* Python string methods (`strip`, `split`, `int` conversion) are modelled by
  structurally recursive functions over the character list of the string,
  so that all definitions evaluate inside the kernel.
* Python's stable `sorted` is modelled by Mathlib's `List.insertionSort`,
  which is a stable sort; the sort key `(contig, start, stop)` becomes the
  relation `rowle`.
* Generators (`yield`) become functions returning lists, in yield order.
-/

/-- One parsed row of the context table (the dict built by `parse_line`). -/
structure GeneRecord where
  q_full : String
  q_id : String
  q_species : String
  strand : String
  start : Int
  stop : Int
  prot_id : String
  contig : String
  assembly : String
deriving DecidableEq, Repr, Inhabited

/-- Drop leading and trailing whitespace from a character list
(Python `str.strip()`). -/
def trimChars (cs : List Char) : List Char :=
  ((cs.dropWhile Char.isWhitespace).reverse.dropWhile Char.isWhitespace).reverse

/-- Python `str.strip()`. -/
def pyStrip (s : String) : String := ⟨trimChars s.data⟩

/-- Helper for `splitWs`: accumulate the current word (in reverse) while
scanning the characters. -/
def splitWsAux : List Char → List Char → List (List Char)
  | [], acc => if acc.isEmpty then [] else [acc.reverse]
  | c :: cs, acc =>
    if c.isWhitespace then
      if acc.isEmpty then splitWsAux cs [] else acc.reverse :: splitWsAux cs []
    else splitWsAux cs (c :: acc)

/-- Python `str.split()` with no separator: split on whitespace runs,
dropping empty pieces. -/
def splitWs (s : String) : List String :=
  (splitWsAux s.data []).map (fun cs => ⟨cs⟩)

/-- Split a character list at every occurrence of `sep`, keeping empty
pieces (Python `str.split(sep)` with an explicit one-character separator). -/
def splitOnChar (sep : Char) : List Char → List (List Char)
  | [] => [[]]
  | c :: cs =>
    if c = sep then [] :: splitOnChar sep cs
    else
      match splitOnChar sep cs with
      | [] => [[c]]
      | w :: ws => (c :: w) :: ws

/-- Python `s.split("|")` as a list of strings. -/
def splitBar (s : String) : List String :=
  (splitOnChar '|' s.data).map (fun cs => ⟨cs⟩)

/-- Join strings with a separator (Python `sep.join(...)`). -/
def pyJoin (sep : String) : List String → String
  | [] => ""
  | [x] => x
  | x :: y :: ys => x ++ sep ++ pyJoin sep (y :: ys)

/-- Parse a non-empty all-digit character list as a natural number. -/
def digitsToNat? (cs : List Char) : Option Nat :=
  if cs.isEmpty then none
  else if cs.all Char.isDigit then
    some (cs.foldl (fun n c => n * 10 + (c.toNat - 48)) 0)
  else none

/-- Python `int(str)`: strips surrounding whitespace, accepts an optional
sign followed by decimal digits; returns `none` where Python raises
`ValueError`.  (Underscore digit separators and non-ASCII digits, which
CPython also accepts, do not occur in this data and are not modelled.) -/
def pyParseInt (s : String) : Option Int :=
  match trimChars s.data with
  | '-' :: cs => (digitsToNat? cs).map (fun n => -(n : Int))
  | '+' :: cs => (digitsToNat? cs).map (fun n => (n : Int))
  | cs => (digitsToNat? cs).map (fun n => (n : Int))

/-- The final interval normalization of `parse_line`:
`if obj["start"] > obj["stop"]: swap`. -/
def normalizeRec (obj : GeneRecord) : GeneRecord :=
  if obj.start > obj.stop then { obj with start := obj.stop, stop := obj.start } else obj

/-- The function `parse_line`: split the line on whitespace; fewer than 12 fields means
"skip" (`.ok none`); a coordinate field that is not an integer raises
(`.error ()`); otherwise build the record and normalize the interval. -/
def parse_line (line : String) : Except Unit (Option GeneRecord) :=
  let parts := splitWs (pyStrip line)
  if parts.length < 12 then .ok none
  else
    match pyParseInt (parts.getD 7 ""), pyParseInt (parts.getD 8 "") with
    | some a, some b =>
      let p0 := parts.getD 0 ""
      let obj : GeneRecord :=
        { q_full := p0
          q_id := (splitBar p0).headD ""
          q_species :=
            match splitBar p0 with
            | _ :: y :: rest => pyJoin "|" (y :: rest)
            | _ => ""
          strand := parts.getD 3 ""
          start := a
          stop := b
          prot_id := parts.getD 9 ""
          contig := parts.getD 10 ""
          assembly := parts.getD 11 "" }
      .ok (some (normalizeRec obj))
    | _, _ => .error ()

/-- Decidable equality on the result type of `parse_line` (needed so that
concrete runs of the embedded program can be checked by `decide`). -/
instance {ε α : Type} [DecidableEq ε] [DecidableEq α] : DecidableEq (Except ε α) :=
  fun x y =>
    match x, y with
    | .ok a, .ok b =>
      if h : a = b then .isTrue (by rw [h]) else .isFalse (by intro he; cases he; exact h rfl)
    | .error a, .error b =>
      if h : a = b then .isTrue (by rw [h]) else .isFalse (by intro he; cases he; exact h rfl)
    | .ok _, .error _ => .isFalse (by intro he; cases he)
    | .error _, .ok _ => .isFalse (by intro he; cases he)

/-! ## Block segmentation (`blocks_by_query`) -/

/-- The loop of the generator `blocks_by_query`, with its two state
variables `current_key` (`none` before the first valid row) and `current`.
Yields are collected into the result list, in yield order; an uncaught
parse error aborts the run. -/
def blocks_by_query_go (ck : Option String) (current : List GeneRecord) :
    List String → Except Unit (List (String × List GeneRecord))
  | [] => .ok (if current.isEmpty then [] else [(ck.getD "", current)])
  | line :: rest =>
    if pyStrip line = "" then blocks_by_query_go ck current rest
    else
      match parse_line line with
      | .error e => .error e
      | .ok none => blocks_by_query_go ck current rest
      | .ok (some r) =>
        match ck with
        | none => blocks_by_query_go (some r.q_full) (current ++ [r]) rest
        | some k =>
          if r.q_full = k then blocks_by_query_go (some k) (current ++ [r]) rest
          else (blocks_by_query_go (some r.q_full) [r] rest).map
            (fun bs => (k, current) :: bs)

/-- The generator `blocks_by_query`: group consecutive valid rows into blocks keyed by
column 1 (`q_full`). -/
def blocks_by_query (lines : List String) : Except Unit (List (String × List GeneRecord)) :=
  blocks_by_query_go none [] lines

/-- The same grouping loop on already-parsed rows (used to relate
`blocks_by_query` to its specification). -/
def blocksRows (ck : Option String) (current : List GeneRecord) :
    List GeneRecord → List (String × List GeneRecord)
  | [] => if current.isEmpty then [] else [(ck.getD "", current)]
  | r :: rest =>
    match ck with
    | none => blocksRows (some r.q_full) (current ++ [r]) rest
    | some k =>
      if r.q_full = k then blocksRows (some k) (current ++ [r]) rest
      else (k, current) :: blocksRows (some r.q_full) [r] rest

/-- The successfully parsed rows of the input, in input order: blank and
short lines are skipped, an unparseable coordinate aborts (exactly the row
stream that `blocks_by_query` consumes). -/
def validRowsE : List String → Except Unit (List GeneRecord)
  | [] => .ok []
  | line :: rest =>
    if pyStrip line = "" then validRowsE rest
    else
      match parse_line line with
      | .error e => .error e
      | .ok none => validRowsE rest
      | .ok (some r) => (validRowsE rest).map (fun rs => r :: rs)

/-- Modelled from the spec's words: the maximal consecutive runs of rows
sharing one `q_full` value, each paired with that shared key, in input
order.  Used as the specification against which `blocks_by_query` is
checked. -/
def runsSpec : List GeneRecord → List (String × List GeneRecord)
  | [] => []
  | r :: rest =>
    (r.q_full, r :: rest.takeWhile (fun x => x.q_full == r.q_full)) ::
      runsSpec (rest.dropWhile (fun x => x.q_full == r.q_full))
termination_by rs => rs.length
decreasing_by
  simp only [List.length_cons]
  exact Nat.lt_succ_of_le (List.dropWhile_sublist _).length_le

/-! ## Operon building (`build_operons`) -/

/-- The sort key comparison of `build_operons`:
`key=lambda r: (r["contig"], r["start"], r["stop"])`, i.e. lexicographic on
the triple, with contigs compared as Python strings (by code points). -/
def rowle (a b : GeneRecord) : Prop :=
  a.contig.data < b.contig.data ∨
    (a.contig = b.contig ∧ (a.start < b.start ∨ (a.start = b.start ∧ a.stop ≤ b.stop)))

instance : DecidableRel rowle := fun a b => by unfold rowle; infer_instance

/-- The `same_strand_ok` flag computed by `build_operons`. -/
def same_strand_ok (require_same_strand : Bool) (prev r : GeneRecord) : Bool :=
  if require_same_strand then r.strand == prev.strand else true

/-- The chaining loop of `build_operons` over the sorted rows, with state
`operons` (closed clusters) and `current` (the open cluster). -/
def buildGo (max_gap : Int) (rss : Bool) :
    List GeneRecord → List (List GeneRecord) → List GeneRecord → List (List GeneRecord)
  | [], operons, current => if current.isEmpty then operons else operons ++ [current]
  | r :: rest, operons, current =>
    match current.getLast? with
    | none => buildGo max_gap rss rest operons [r]
    | some prev =>
      if r.contig ≠ prev.contig then
        buildGo max_gap rss rest (operons ++ [current]) [r]
      else if r.start - prev.stop ≤ max_gap ∧ same_strand_ok rss prev r then
        buildGo max_gap rss rest operons (current ++ [r])
      else
        buildGo max_gap rss rest (operons ++ [current]) [r]

/-- The function `build_operons`: stable-sort the rows by `(contig, start, stop)` and
greedily chain them into clusters. -/
def build_operons (rows : List GeneRecord) (max_gap : Int) (require_same_strand : Bool) :
    List (List GeneRecord) :=
  buildGo max_gap require_same_strand (rows.insertionSort rowle) [] []

/-- The adjacency condition of the chaining step: intergenic distance within
`max_gap`, and equal strands when `require_same_strand` is set. -/
def chainCond (max_gap : Int) (rss : Bool) (a b : GeneRecord) : Prop :=
  b.start - a.stop ≤ max_gap ∧ (rss = true → a.strand = b.strand)

instance : IsTotal GeneRecord rowle :=
  ⟨by
    intro a b
    rcases lt_trichotomy a.contig.data b.contig.data with h | h | h
    · exact .inl (.inl h)
    · have hc : a.contig = b.contig := congrArg String.mk h
      rcases lt_trichotomy a.start b.start with h1 | h1 | h1
      · exact .inl (.inr ⟨hc, .inl h1⟩)
      · rcases le_total a.stop b.stop with h2 | h2
        · exact .inl (.inr ⟨hc, .inr ⟨h1, h2⟩⟩)
        · exact .inr (.inr ⟨hc.symm, .inr ⟨h1.symm, h2⟩⟩)
      · exact .inr (.inr ⟨hc.symm, .inl h1⟩)
    · exact .inr (.inl h)⟩

instance : IsTrans GeneRecord rowle :=
  ⟨by
    intro a b c hab hbc
    rcases hab with hab | ⟨hab, hab2⟩
    · rcases hbc with hbc | ⟨hbc, _⟩
      · exact .inl (hab.trans hbc)
      · exact .inl (lt_of_lt_of_eq hab (congrArg String.data hbc))
    · rcases hbc with hbc | ⟨hbc, hbc2⟩
      · exact .inl (lt_of_eq_of_lt (congrArg String.data hab) hbc)
      · refine .inr ⟨hab.trans hbc, ?_⟩
        omega⟩

/-! ## Query-operon selection and output formatting (the loop body of `main`) -/

/-- One output record of the script (the fields of one TSV data line,
before tab-joining). -/
structure OutRecord where
  q_full : String
  query_id : String
  q_species : String
  assembly : String
  contig : String
  op_start : Int
  op_end : Int
  size : Nat
  members_ids : String
  members_coords : String
  marker : String
deriving DecidableEq, Repr

/-- Python `min` over a list of ints.  Python raises on an empty sequence;
in this program it is only applied to cluster member lists, which are never
empty, so the `[]` case is unreachable (given the value `0`). -/
def pyMin : List Int → Int
  | [] => 0
  | x :: xs => xs.foldl min x

/-- Python `max` over a list of ints (same remark as `pyMin`). -/
def pyMax : List Int → Int
  | [] => 0
  | x :: xs => xs.foldl max x

/-- Python `str(i)` for an int (used in the `prot_id:start-stop` strings). -/
def pyIntStr (i : Int) : String := toString i

/-- The body of `main`'s inner loop for one cluster `op` that already
contains the query: skip it if it has no non-self member, otherwise format
one output record. -/
def emitCluster (qf query_id qs asm : String) (op : List GeneRecord) : Option OutRecord :=
  let members := op
  let non_self := members.filter (fun r => !(r.prot_id == query_id))
  if non_self.length = 0 then none
  else
    some
      { q_full := qf
        query_id := query_id
        q_species := qs
        assembly := asm
        contig := members.headI.contig
        op_start := pyMin (members.map (fun r => r.start))
        op_end := pyMax (members.map (fun r => r.stop))
        size := members.length
        members_ids := pyJoin "," (members.map (fun r => r.prot_id))
        members_coords :=
          pyJoin "," (members.map
            (fun r => r.prot_id ++ ":" ++ pyIntStr r.start ++ "-" ++ pyIntStr r.stop))
        marker := "YES" }

/-- The body of `main`'s outer loop for one block `(q_full, rows)`:
build the operons, keep those whose member `prot_id`s include the query id,
and emit one record per kept cluster that has a non-self member. -/
def processBlock (max_gap : Int) (rss : Bool) (qf : String) (rows : List GeneRecord) :
    List OutRecord :=
  match rows with
  | [] => []
  | r0 :: _ =>
    let query_id := r0.q_id
    let assembly := r0.assembly
    let operons := build_operons rows max_gap rss
    let query_operons := operons.filter (fun op => op.any (fun r => r.prot_id == query_id))
    query_operons.filterMap (emitCluster qf query_id r0.q_species assembly)

/-- Modelled from the spec's words: the record that §4.4 prescribes for a
qualifying cluster — contig of the first member, minimum start, maximum
stop, member count, comma-joined ids and `id:start-stop` strings in cluster
order, and the fixed `"YES"` marker. -/
def specRecord (qf query_id qs asm : String) (op : List GeneRecord) : OutRecord :=
  { q_full := qf
    query_id := query_id
    q_species := qs
    assembly := asm
    contig := op.headI.contig
    op_start := ((op.map (fun r => r.start)).min?).getD 0
    op_end := ((op.map (fun r => r.stop)).max?).getD 0
    size := op.length
    members_ids := pyJoin "," (op.map (fun r => r.prot_id))
    members_coords :=
      pyJoin "," (op.map
        (fun r => r.prot_id ++ ":" ++ pyIntStr r.start ++ "-" ++ pyIntStr r.stop))
    marker := "YES" }

/-- Modelled from the spec's words: emit exactly one record per cluster that
contains a member with `prot_id` equal to the query id and at least one
member with a different `prot_id`. -/
def specOutputs (max_gap : Int) (rss : Bool) (qf : String) (rows : List GeneRecord) :
    List OutRecord :=
  match rows with
  | [] => []
  | r0 :: _ =>
    (build_operons rows max_gap rss).filterMap (fun op =>
      if (∃ r ∈ op, r.prot_id = r0.q_id) ∧ (∃ r ∈ op, r.prot_id ≠ r0.q_id) then
        some (specRecord qf r0.q_id r0.q_species r0.assembly op)
      else none)

/-- Boundary property between two consecutive clusters: if the last member
of the first and the first member of the second lie on the same contig, the
chaining condition fails between them (otherwise the builder would not have
closed the first cluster). -/
def contigBreak (max_gap : Int) (rss : Bool) (c₁ c₂ : List GeneRecord) : Prop :=
  ∀ a ∈ c₁.getLast?, ∀ b ∈ c₂.head?, a.contig = b.contig → ¬ chainCond max_gap rss a b

/-- The open cluster viewed as a (possibly empty) tail of the closed-cluster
list. -/
def optCur (c : List GeneRecord) : List (List GeneRecord) :=
  if c = [] then [] else [c]

/-- Relation holding between consecutive members of one cluster: the
chaining condition together with equality of contigs. -/
def chainRel (max_gap : Int) (rss : Bool) (a b : GeneRecord) : Prop :=
  chainCond max_gap rss a b ∧ a.contig = b.contig

/-- The sort key of `build_operons`: the tuple `(contig, start, stop)`. -/
def sortKey (r : GeneRecord) : String × Int × Int := (r.contig, r.start, r.stop)

/-! ## Concrete inputs used by witnesses and counterexamples -/

/-- A neighbor gene row on contig `C1` at 100..200. -/
def wNb : GeneRecord :=
  ⟨"Q1#1|E_coli", "Q1#1", "E_coli", "+", 100, 200, "N1", "C1", "G1"⟩

/-- The query's self row on contig `C1` at 210..260 (gap 10 from `wNb`). -/
def wSf : GeneRecord :=
  ⟨"Q1#1|E_coli", "Q1#1", "E_coli", "+", 210, 260, "Q1#1", "C1", "G1"⟩

/-- A distant neighbor on contig `C1` at 1000..2000 (gap 800 from `wNb`). -/
def wFar : GeneRecord :=
  ⟨"Q1#1|E_coli", "Q1#1", "E_coli", "+", 1000, 2000, "N2", "C1", "G1"⟩

/-- A self row at 100..200 (isolated from `wFar` by more than any small gap). -/
def wQ : GeneRecord :=
  ⟨"Q1#1|E_coli", "Q1#1", "E_coli", "+", 100, 200, "Q1#1", "C1", "G1"⟩

/-- A well-formed 12-field line whose coordinates arrive reversed (20 10). -/
def swapLine : String := "A|S x x + x x x 20 10 P CT G1"

/-- The record that `parse_line` produces for `swapLine` (after the swap). -/
def wRec : GeneRecord := ⟨"A|S", "A", "S", "+", 10, 20, "P", "CT", "G1"⟩

/-- A well-formed line with the same key as `swapLine`. -/
def goodLine1 : String := "A|S x x + x x x 10 20 P CT G1"

/-- Another well-formed line with the same key. -/
def goodLine2 : String := "A|S x x + x x x 30 40 Q CT G1"

/-- A 12-field line whose column 8 (`1x0`) is not an integer: Python's
`int()` raises `ValueError` on it. -/
def badCoordLine : String := "A|S x x + x x x 1x0 20 P CT G1"

/-! ## Lemmas about block segmentation -/

/-- Concatenating the rows of the blocks produced by the grouping loop
restores the accumulated rows followed by the remaining input. -/
theorem blocksRows_flatten (rs : List GeneRecord) : ∀ (ck : Option String) (cur : List GeneRecord),
    ((blocksRows ck cur rs).map Prod.snd).flatten = cur ++ rs := by
  induction rs with
  | nil =>
    intro ck cur
    simp only [blocksRows]
    split
    · next h => simp [List.isEmpty_iff.mp h]
    · simp
  | cons r rest ih =>
    intro ck cur
    cases ck with
    | none =>
      simp only [blocksRows]
      rw [ih]
      simp
    | some k =>
      simp only [blocksRows]
      split
      · rw [ih]; simp
      · simp only [List.map_cons, List.flatten_cons]
        rw [ih]
        simp

/-- The grouping loop with a non-empty accumulated block extends that block
with the maximal same-key run and then produces exactly the maximal runs of
the remaining rows. -/
theorem blocksRows_runs (rs : List GeneRecord) : ∀ (k : String) (cur : List GeneRecord),
    cur ≠ [] →
    blocksRows (some k) cur rs =
      (k, cur ++ rs.takeWhile (fun x => x.q_full == k)) ::
        runsSpec (rs.dropWhile (fun x => x.q_full == k)) := by
  induction rs with
  | nil =>
    intro k cur hcur
    simp [blocksRows, runsSpec, List.isEmpty_iff, hcur]
  | cons r rest ih =>
    intro k cur hcur
    simp only [blocksRows]
    by_cases h : r.q_full = k
    · rw [if_pos h, ih k (cur ++ [r]) (by simp)]
      simp [List.takeWhile_cons, List.dropWhile_cons, h]
    · have hb : (r.q_full == k) = false := by simpa using h
      rw [if_neg h, ih r.q_full [r] (by simp)]
      simp only [List.takeWhile_cons, List.dropWhile_cons, hb, Bool.false_eq_true, if_false]
      rw [show runsSpec (r :: rest) = (r.q_full, r :: rest.takeWhile (fun x => x.q_full == r.q_full)) :: runsSpec (rest.dropWhile (fun x => x.q_full == r.q_full)) from by rw [runsSpec.eq_def]]
      simp [List.takeWhile_cons, List.dropWhile_cons, h]

/-- Started from the empty state, the grouping loop yields exactly the
maximal consecutive runs. -/
theorem blocksRows_none_runs (rs : List GeneRecord) :
    blocksRows none [] rs = runsSpec rs := by
  cases rs with
  | nil => simp [blocksRows, runsSpec]
  | cons r rest =>
    simp only [blocksRows, List.nil_append]
    rw [blocksRows_runs rest r.q_full [r] (by simp), show runsSpec (r :: rest) = (r.q_full, r :: rest.takeWhile (fun x => x.q_full == r.q_full)) :: runsSpec (rest.dropWhile (fun x => x.q_full == r.q_full)) from by rw [runsSpec.eq_def]]
    simp

/-- The line-level generator is the rows-level grouping loop applied to the
successfully parsed rows (the parse error, if any, aborts both). -/
theorem blocks_go_map (lines : List String) : ∀ (ck : Option String) (cur : List GeneRecord),
    blocks_by_query_go ck cur lines = (validRowsE lines).map (fun rs => blocksRows ck cur rs) := by
  induction lines with
  | nil => intro ck cur; rfl
  | cons line rest ih =>
    intro ck cur
    by_cases hb : pyStrip line = ""
    · simp [blocks_by_query_go, validRowsE, hb, ih]
    · cases hp : parse_line line with
      | error e => simp [blocks_by_query_go, validRowsE, hb, hp, Except.map]
      | ok o =>
        cases o with
        | none => simp [blocks_by_query_go, validRowsE, hb, hp, ih]
        | some r =>
          cases ck with
          | none =>
            simp only [blocks_by_query_go, validRowsE, hb, hp, ih, if_neg]
            cases hv : validRowsE rest with
            | error e => simp [Except.map]
            | ok rs => simp [Except.map, blocksRows]
          | some k =>
            by_cases hk : r.q_full = k
            · simp only [blocks_by_query_go, validRowsE, hb, hp, hk, ih, if_neg, if_pos]
              cases hv : validRowsE rest with
              | error e => simp [Except.map]
              | ok rs => simp [Except.map, blocksRows, hk]
            · simp only [blocks_by_query_go, validRowsE, hb, hp, hk, ih, if_neg]
              cases hv : validRowsE rest with
              | error e => simp [Except.map]
              | ok rs => simp [Except.map, blocksRows, hk]

/-- Every row in a successful `validRowsE` result was produced by a
successful `parse_line`. -/
theorem validRowsE_mem (lines : List String) : ∀ (rs : List GeneRecord),
    validRowsE lines = .ok rs → ∀ r ∈ rs, ∃ line, parse_line line = .ok (some r) := by
  induction lines with
  | nil =>
    intro rs h r hr
    simp only [validRowsE] at h
    cases h
    simp at hr
  | cons line rest ih =>
    intro rs h r hr
    by_cases hb : pyStrip line = ""
    · rw [show validRowsE (line :: rest) = validRowsE rest from by
        simp [validRowsE, hb]] at h
      exact ih rs h r hr
    · cases hp : parse_line line with
      | error e =>
        rw [show validRowsE (line :: rest) = .error e from by
          simp [validRowsE, hb, hp]] at h
        cases h
      | ok o =>
        cases o with
        | none =>
          rw [show validRowsE (line :: rest) = validRowsE rest from by
            simp [validRowsE, hb, hp]] at h
          exact ih rs h r hr
        | some r0 =>
          cases hv : validRowsE rest with
          | error e =>
            rw [show validRowsE (line :: rest) = .error e from by
              simp [validRowsE, hb, hp, hv, Except.map]] at h
            cases h
          | ok rs0 =>
            rw [show validRowsE (line :: rest) = .ok (r0 :: rs0) from by
              simp [validRowsE, hb, hp, hv, Except.map]] at h
            cases h
            rcases List.mem_cons.mp hr with hr | hr
            · exact ⟨line, by rw [hp, hr]⟩
            · exact ih rs0 hv r hr

/-! ## Lemmas about the chaining loop -/

/-- The rows of the clusters produced by the chaining loop are the closed
clusters' rows, then the open cluster, then the remaining input. -/
theorem buildGo_flatten (g : Int) (s : Bool) (rest : List GeneRecord) :
    ∀ (ops : List (List GeneRecord)) (cur : List GeneRecord),
    (buildGo g s rest ops cur).flatten = ops.flatten ++ cur ++ rest := by
  induction rest with
  | nil =>
    intro ops cur
    simp only [buildGo]
    split
    · next h => simp [List.isEmpty_iff.mp h]
    · simp
  | cons r rest ih =>
    intro ops cur
    cases hl : cur.getLast? with
    | none =>
      simp only [buildGo, hl]
      rw [ih]
      simp [List.getLast?_eq_none_iff.mp hl]
    | some prev =>
      simp only [buildGo, hl]
      by_cases hcont : r.contig ≠ prev.contig
      · rw [if_pos hcont, ih]; simp
      · rw [if_neg hcont]
        by_cases hcc : r.start - prev.stop ≤ g ∧ same_strand_ok s prev r
        · rw [if_pos hcc, ih]; simp
        · rw [if_neg hcc, ih]; simp

/-- Every cluster produced by the chaining loop is non-empty, provided the
already-closed clusters are. -/
theorem buildGo_ne_nil (g : Int) (s : Bool) (rest : List GeneRecord) :
    ∀ (ops : List (List GeneRecord)) (cur : List GeneRecord),
    (∀ op ∈ ops, op ≠ []) →
    ∀ op ∈ buildGo g s rest ops cur, op ≠ [] := by
  induction rest with
  | nil =>
    intro ops cur hops op hop
    simp only [buildGo] at hop
    split at hop
    · exact hops op hop
    · next h =>
      rcases List.mem_append.mp hop with h' | h'
      · exact hops op h'
      · rw [List.mem_singleton.mp h']
        simpa [List.isEmpty_iff] using h
  | cons r rest ih =>
    intro ops cur hops op hop
    cases hl : cur.getLast? with
    | none =>
      simp only [buildGo, hl] at hop
      exact ih ops [r] hops op hop
    | some prev =>
      have hcur : cur ≠ [] := by intro h; rw [h] at hl; simp at hl
      have hops' : ∀ op ∈ ops ++ [cur], op ≠ [] := by
        intro op' hop'
        rcases List.mem_append.mp hop' with h' | h'
        · exact hops op' h'
        · rw [List.mem_singleton.mp h']; exact hcur
      simp only [buildGo, hl] at hop
      by_cases hcont : r.contig ≠ prev.contig
      · rw [if_pos hcont] at hop
        exact ih (ops ++ [cur]) [r] hops' op hop
      · rw [if_neg hcont] at hop
        by_cases hcc : r.start - prev.stop ≤ g ∧ same_strand_ok s prev r
        · rw [if_pos hcc] at hop
          exact ih ops (cur ++ [r]) hops op hop
        · rw [if_neg hcc] at hop
          exact ih (ops ++ [cur]) [r] hops' op hop

/-- The branch conditions of the chaining step imply `chainRel` between the
last member of the open cluster and the appended row. -/
theorem chainRel_of_conds {g : Int} {s : Bool} {prev r : GeneRecord}
    (hcont : ¬ r.contig ≠ prev.contig)
    (hcc : r.start - prev.stop ≤ g ∧ same_strand_ok s prev r) :
    chainRel g s prev r := by
  refine ⟨⟨hcc.1, ?_⟩, (not_not.mp hcont).symm⟩
  intro hs
  have h2 := hcc.2
  rw [hs] at h2
  simp only [same_strand_ok, if_pos] at h2
  exact (beq_iff_eq.mp h2).symm

/-- Every cluster produced by the chaining loop satisfies `chainRel`
between consecutive members, provided the closed clusters and the open
cluster already do. -/
theorem buildGo_chain (g : Int) (s : Bool) (rest : List GeneRecord) :
    ∀ (ops : List (List GeneRecord)) (cur : List GeneRecord),
    (∀ op ∈ ops, op.Chain' (chainRel g s)) →
    cur.Chain' (chainRel g s) →
    ∀ op ∈ buildGo g s rest ops cur, op.Chain' (chainRel g s) := by
  induction rest with
  | nil =>
    intro ops cur hops hcur op hop
    simp only [buildGo] at hop
    split at hop
    · exact hops op hop
    · rcases List.mem_append.mp hop with h' | h'
      · exact hops op h'
      · rw [List.mem_singleton.mp h']; exact hcur
  | cons r rest ih =>
    intro ops cur hops hcur op hop
    cases hl : cur.getLast? with
    | none =>
      simp only [buildGo, hl] at hop
      exact ih ops [r] hops (List.chain'_singleton r) op hop
    | some prev =>
      have hops' : ∀ op ∈ ops ++ [cur], op.Chain' (chainRel g s) := by
        intro op' hop'
        rcases List.mem_append.mp hop' with h' | h'
        · exact hops op' h'
        · rw [List.mem_singleton.mp h']; exact hcur
      simp only [buildGo, hl] at hop
      by_cases hcont : r.contig ≠ prev.contig
      · rw [if_pos hcont] at hop
        exact ih (ops ++ [cur]) [r] hops' (List.chain'_singleton r) op hop
      · rw [if_neg hcont] at hop
        by_cases hcc : r.start - prev.stop ≤ g ∧ same_strand_ok s prev r
        · rw [if_pos hcc] at hop
          refine ih ops (cur ++ [r]) hops ?_ op hop
          refine List.chain'_append.mpr ⟨hcur, List.chain'_singleton r, ?_⟩
          intro x hx y hy
          rw [hl] at hx
          simp only [Option.mem_some_iff] at hx
          simp only [List.head?_cons, Option.mem_some_iff] at hy
          rw [← hx, ← hy]
          exact chainRel_of_conds hcont hcc
        · rw [if_neg hcc] at hop
          exact ih (ops ++ [cur]) [r] hops' (List.chain'_singleton r) op hop

/-- The failed chaining condition yields the boundary property between the
closed cluster (ending in `prev`) and the new cluster starting at `r`. -/
theorem contigBreak_of_close {g : Int} {s : Bool} {cur : List GeneRecord}
    {prev r : GeneRecord} (hl : cur.getLast? = some prev)
    (hfail : r.contig ≠ prev.contig ∨ ¬ (r.start - prev.stop ≤ g ∧ same_strand_ok s prev r)) :
    contigBreak g s cur [r] := by
  intro a ha b hb hcontig
  rw [hl] at ha
  simp only [Option.mem_some_iff] at ha
  simp only [List.head?_cons, Option.mem_some_iff] at hb
  rw [← ha, ← hb]
  rw [← ha, ← hb] at hcontig
  intro hchain
  rcases hfail with hfail | hfail
  · exact hfail hcontig.symm
  · refine hfail ⟨hchain.1, ?_⟩
    cases s with
    | false => simp [same_strand_ok]
    | true =>
      simp only [same_strand_ok, if_pos]
      exact beq_iff_eq.mpr (hchain.2 rfl).symm

/-- The boundary property holds between all consecutive clusters produced by
the chaining loop, given that it holds for the state so far. -/
theorem buildGo_boundary (g : Int) (s : Bool) (rest : List GeneRecord) :
    ∀ (ops : List (List GeneRecord)) (cur : List GeneRecord),
    (cur = [] → ops = []) →
    (ops ++ optCur cur).Chain' (contigBreak g s) →
    (buildGo g s rest ops cur).Chain' (contigBreak g s) := by
  induction rest with
  | nil =>
    intro ops cur hemp hinv
    simp only [buildGo]
    split
    · next h =>
      have hc : cur = [] := List.isEmpty_iff.mp h
      simpa [optCur, hc] using hinv
    · next h =>
      have hc : cur ≠ [] := by simpa [List.isEmpty_iff] using h
      simpa [optCur, hc] using hinv
  | cons r rest ih =>
    intro ops cur hemp hinv
    cases hl : cur.getLast? with
    | none =>
      have hc : cur = [] := List.getLast?_eq_none_iff.mp hl
      have ho : ops = [] := hemp hc
      simp only [buildGo, hl]
      refine ih ops [r] (fun h => nomatch h) ?_
      rw [ho]
      simp [optCur, List.chain'_singleton]
    | some prev =>
      have hne : cur ≠ [] := by intro h; rw [h] at hl; simp at hl
      have hinv' : (ops ++ [cur]).Chain' (contigBreak g s) := by
        simpa [optCur, hne] using hinv
      simp only [buildGo, hl]
      by_cases hcont : r.contig ≠ prev.contig
      · rw [if_pos hcont]
        refine ih (ops ++ [cur]) [r] (fun h => nomatch h) ?_
        simp only [optCur, if_neg (by simp : ¬ ([r] : List GeneRecord) = [])]
        refine List.chain'_append.mpr ⟨hinv', List.chain'_singleton _, ?_⟩
        intro x hx y hy
        rw [List.getLast?_concat] at hx
        simp only [Option.mem_some_iff] at hx
        simp only [List.head?_cons, Option.mem_some_iff] at hy
        rw [← hx, ← hy]
        exact contigBreak_of_close hl (.inl hcont)
      · rw [if_neg hcont]
        by_cases hcc : r.start - prev.stop ≤ g ∧ same_strand_ok s prev r
        · rw [if_pos hcc]
          refine ih ops (cur ++ [r]) (fun h => by simp at h) ?_
          simp only [optCur, if_neg (by simp : ¬ (cur ++ [r]) = [])]
          have hparts := List.chain'_append.mp hinv'
          refine List.chain'_append.mpr ⟨hparts.1, List.chain'_singleton _, ?_⟩
          intro x hx y hy
          simp only [List.head?_cons, Option.mem_some_iff] at hy
          have hb0 := hparts.2.2 x hx cur (by simp)
          rw [← hy]
          intro a ha b hb hcontig
          rw [List.head?_append_of_ne_nil cur hne] at hb
          exact hb0 a ha b hb hcontig
        · rw [if_neg hcc]
          refine ih (ops ++ [cur]) [r] (fun h => nomatch h) ?_
          simp only [optCur, if_neg (by simp : ¬ ([r] : List GeneRecord) = [])]
          refine List.chain'_append.mpr ⟨hinv', List.chain'_singleton _, ?_⟩
          intro x hx y hy
          rw [List.getLast?_concat] at hx
          simp only [Option.mem_some_iff] at hx
          simp only [List.head?_cons, Option.mem_some_iff] at hy
          rw [← hx, ← hy]
          exact contigBreak_of_close hl (.inr hcc)

/-! ## Consequences for `build_operons` -/

/-- Consecutive members of every cluster of `build_operons` satisfy
`chainRel`. -/
theorem build_operons_chain (rows : List GeneRecord) (g : Int) (s : Bool) :
    ∀ op ∈ build_operons rows g s, op.Chain' (chainRel g s) := by
  intro op hop
  exact buildGo_chain g s (rows.insertionSort rowle) [] []
    (by intro o ho; simp at ho) List.chain'_nil op hop

/-- Every cluster of `build_operons` is non-empty. -/
theorem build_operons_ne_nil (rows : List GeneRecord) (g : Int) (s : Bool) :
    ∀ op ∈ build_operons rows g s, op ≠ [] := by
  intro op hop
  exact buildGo_ne_nil g s (rows.insertionSort rowle) [] []
    (by intro o ho; simp at ho) op hop

/-- The boundary property holds between consecutive clusters of
`build_operons`. -/
theorem build_operons_boundary (rows : List GeneRecord) (g : Int) (s : Bool) :
    (build_operons rows g s).Chain' (contigBreak g s) := by
  exact buildGo_boundary g s (rows.insertionSort rowle) [] []
    (fun _ => rfl) (by simp [optCur])

/-- The rows of the clusters of `build_operons`, concatenated, are the
sorted rows. -/
theorem build_operons_flatten (rows : List GeneRecord) (g : Int) (s : Bool) :
    (build_operons rows g s).flatten = rows.insertionSort rowle := by
  rw [build_operons, buildGo_flatten]
  simp

/-- The rows of the clusters of `build_operons` are a permutation of the
input rows. -/
theorem build_operons_perm (rows : List GeneRecord) (g : Int) (s : Bool) :
    List.Perm (build_operons rows g s).flatten rows := by
  rw [build_operons_flatten]
  exact List.perm_insertionSort rowle rows

/-- In a list chained by `chainRel`, all members share one contig. -/
theorem chain_contig_eq (g : Int) (s : Bool) :
    ∀ (l : List GeneRecord), l.Chain' (chainRel g s) →
      ∀ x ∈ l, ∀ y ∈ l, x.contig = y.contig := by
  have aux : ∀ (l : List GeneRecord) (a : GeneRecord), (a :: l).Chain' (chainRel g s) →
      ∀ y ∈ a :: l, a.contig = y.contig := by
    intro l
    induction l with
    | nil =>
      intro a _ y hy
      simp only [List.mem_singleton] at hy
      rw [hy]
    | cons b t ih =>
      intro a hchain y hy
      have h1 : chainRel g s a b := (List.chain'_cons.mp hchain).1
      have h2 := (List.chain'_cons.mp hchain).2
      rcases List.mem_cons.mp hy with hy | hy
      · rw [hy]
      · exact h1.2.trans (ih b h2 y hy)
  intro l hchain x hx y hy
  cases l with
  | nil => simp at hx
  | cons a t =>
    exact (aux t a hchain x hx).symm.trans (aux t a hchain y hy)

/-! ## Lemmas about parsing -/

/-- The interval normalization establishes `start ≤ stop`. -/
theorem normalizeRec_le (obj : GeneRecord) :
    (normalizeRec obj).start ≤ (normalizeRec obj).stop := by
  unfold normalizeRec
  split
  · next h => simpa using le_of_lt h
  · next h => simpa using le_of_not_lt h

/-- Every record accepted by `parse_line` has `start ≤ stop`. -/
theorem parse_line_le (line : String) (r : GeneRecord)
    (h : parse_line line = .ok (some r)) : r.start ≤ r.stop := by
  simp only [parse_line] at h
  split at h
  · simp at h
  · split at h
    · simp only [Except.ok.injEq, Option.some.injEq] at h
      rw [← h]
      exact normalizeRec_le _
    · simp at h

/-! ## Lemmas about the output loop -/

/-- Python `min` (`pyMin`) agrees with `List.min?` (with default `0`). -/
theorem pyMin_eq (l : List Int) : pyMin l = (l.min?).getD 0 := by
  cases l with
  | nil => rfl
  | cons x xs => rw [pyMin, List.min?_cons']; rfl

/-- Python `max` (`pyMax`) agrees with `List.max?` (with default `0`). -/
theorem pyMax_eq (l : List Int) : pyMax l = (l.max?).getD 0 := by
  cases l with
  | nil => rfl
  | cons x xs => rw [pyMax, List.max?_cons']; rfl

/-- The selector-and-formatter step of `main` agrees pointwise with the
spec-worded emission rule. -/
theorem emitCluster_eq_spec (qf qid qs asm : String) (op : List GeneRecord) :
    (if op.any (fun r => r.prot_id == qid) then emitCluster qf qid qs asm op else none) =
      (if (∃ r ∈ op, r.prot_id = qid) ∧ (∃ r ∈ op, r.prot_id ≠ qid) then
        some (specRecord qf qid qs asm op) else none) := by
  by_cases h1 : op.any (fun r => r.prot_id == qid)
  · rw [if_pos h1]
    have hex : ∃ r ∈ op, r.prot_id = qid := by
      rcases List.any_eq_true.mp h1 with ⟨r, hr, hbeq⟩
      exact ⟨r, hr, beq_iff_eq.mp hbeq⟩
    by_cases h2 : ∃ r ∈ op, r.prot_id ≠ qid
    · rw [if_pos ⟨hex, h2⟩]
      have hne : (op.filter (fun r => !(r.prot_id == qid))).length ≠ 0 := by
        intro hz
        rcases h2 with ⟨r, hr, hrne⟩
        have : op.filter (fun r => !(r.prot_id == qid)) = [] :=
          List.length_eq_zero.mp hz
        have := List.filter_eq_nil_iff.mp this r hr
        simp only [Bool.not_eq_true', beq_eq_false_iff_ne, ne_eq,
          Decidable.not_not] at this
        exact hrne this
      rw [emitCluster]
      simp only [if_neg hne]
      rw [specRecord, pyMin_eq, pyMax_eq]
    · rw [if_neg (by intro hc; exact h2 hc.2)]
      have hnil : op.filter (fun r => !(r.prot_id == qid)) = [] := by
        rw [List.filter_eq_nil_iff]
        intro r hr
        push_neg at h2
        simp only [Bool.not_eq_true', beq_eq_false_iff_ne, ne_eq, Decidable.not_not]
        exact h2 r hr
      rw [emitCluster]
      simp [hnil]
  · rw [if_neg h1, if_neg (by
      intro hc
      rcases hc.1 with ⟨r, hr, hreq⟩
      exact h1 (List.any_eq_true.mpr ⟨r, hr, beq_iff_eq.mpr hreq⟩))]

/-- The per-block loop of `main` agrees with the spec-worded emission rule:
exactly one record per cluster containing the query id and a different
protein id, with the prescribed fields. -/
theorem processBlock_eq_spec (g : Int) (s : Bool) (qf : String) (rows : List GeneRecord) :
    processBlock g s qf rows = specOutputs g s qf rows := by
  cases rows with
  | nil => rfl
  | cons r0 rest =>
    simp only [processBlock, specOutputs]
    rw [List.filterMap_filter]
    exact List.filterMap_congr
      (fun op _ => emitCluster_eq_spec qf r0.q_id r0.q_species r0.assembly op)

/-- Records with equal sort keys are `rowle`-comparable in both directions. -/
theorem rowle_of_key_eq {a b : GeneRecord} (h : sortKey a = sortKey b) : rowle a b := by
  simp only [sortKey, Prod.mk.injEq] at h
  exact .inr ⟨h.1, .inr ⟨h.2.1, le_of_eq h.2.2⟩⟩

/-- Stability of the sort used by `build_operons`: the subsequence of rows
with any fixed `(contig, start, stop)` key is unchanged by sorting. -/
theorem insertionSort_stable_key (rows : List GeneRecord) (k : String × Int × Int) :
    (rows.insertionSort rowle).filter (fun r => sortKey r == k) =
      rows.filter (fun r => sortKey r == k) := by
  have hpair : (rows.filter (fun r => sortKey r == k)).Pairwise rowle := by
    apply List.pairwise_of_forall_mem_list
    intro x hx y hy
    have hxk : sortKey x = k := beq_iff_eq.mp (List.mem_filter.mp hx).2
    have hyk : sortKey y = k := beq_iff_eq.mp (List.mem_filter.mp hy).2
    exact rowle_of_key_eq (hxk.trans hyk.symm)
  have h1 : List.Sublist (rows.filter (fun r => sortKey r == k)) (rows.insertionSort rowle) :=
    List.sublist_insertionSort hpair (List.filter_sublist rows)
  have h2 := h1.filter (fun r => sortKey r == k)
  rw [List.filter_eq_self.mpr (fun a ha => (List.mem_filter.mp ha).2)] at h2
  have h4 : ((rows.insertionSort rowle).filter (fun r => sortKey r == k)).length =
      (rows.filter (fun r => sortKey r == k)).length :=
    ((List.perm_insertionSort rowle rows).filter (fun r => sortKey r == k)).length_eq
  exact (h2.eq_of_length h4.symm).symm

/-! ## Claim theorems -/

/-- Claim C1: in every cluster returned by `build_operons`, any two
consecutive members `a, b` satisfy `b.start - a.stop ≤ max_gap` and, when
`require_same_strand` is set, equal strands; and between any two
consecutive clusters whose adjacent members lie on the same contig, that
condition fails.  (Proved for every integer `max_gap`, in particular every
non-negative one.) -/
theorem claim_C1_cluster_adjacency (rows : List GeneRecord) (g : Int) (s : Bool) :
    (∀ op ∈ build_operons rows g s, op.Chain' (chainCond g s)) ∧
      (build_operons rows g s).Chain' (contigBreak g s) := by
  constructor
  · intro op hop
    exact List.Chain'.imp (fun a b h => h.1) (build_operons_chain rows g s op hop)
  · exact build_operons_boundary rows g s

/-- Witness for C1 at a concrete block: the two-gene cluster chains, and the
boundary condition holds across the produced cluster list. -/
theorem claim_C1_witness :
    [wNb, wSf].Chain' (chainCond 50 false) ∧
      (build_operons [wNb, wSf] 50 false).Chain' (contigBreak 50 false) :=
  ⟨(claim_C1_cluster_adjacency [wNb, wSf] 50 false).1 [wNb, wSf] (by decide),
   (claim_C1_cluster_adjacency [wNb, wSf] 50 false).2⟩

/-- Claim C2: `blocks_by_query` yields exactly the maximal consecutive runs
of successfully parsed rows sharing one `q_full` value, in input order (and
aborts exactly when parsing aborts). -/
theorem claim_C2_blocks_runs (lines : List String) :
    blocks_by_query lines = (validRowsE lines).map runsSpec := by
  rw [blocks_by_query, blocks_go_map]
  cases hv : validRowsE lines with
  | error e => rfl
  | ok rs => simp [Except.map, blocksRows_none_runs]

/-- Claim C6: concatenating the rows of all yielded blocks, in yield order,
restores exactly the successfully parsed rows in input order. -/
theorem claim_C6_rows_preserved (lines : List String) :
    (blocks_by_query lines).map (fun bs => (bs.map Prod.snd).flatten) = validRowsE lines := by
  rw [blocks_by_query, blocks_go_map]
  cases hv : validRowsE lines with
  | error e => rfl
  | ok rs => simp [Except.map, blocksRows_flatten]

/-- Claim C7: every cluster returned by `build_operons` is non-empty with
all members on one contig, and the clusters partition the block's rows (the
concatenation of the clusters is a permutation of the rows). -/
theorem claim_C7_partition (rows : List GeneRecord) (g : Int) (s : Bool) :
    (∀ op ∈ build_operons rows g s,
        op ≠ [] ∧ ∀ x ∈ op, ∀ y ∈ op, x.contig = y.contig) ∧
      List.Perm (build_operons rows g s).flatten rows := by
  refine ⟨fun op hop => ⟨build_operons_ne_nil rows g s op hop, ?_⟩,
    build_operons_perm rows g s⟩
  exact chain_contig_eq g s op (build_operons_chain rows g s op hop)

/-- Witness for C7 at a concrete block given in non-sorted order. -/
theorem claim_C7_witness :
    ([wNb] ≠ [] ∧ ∀ x ∈ [wNb], ∀ y ∈ [wNb], x.contig = y.contig) ∧
      List.Perm (build_operons [wFar, wNb] 50 false).flatten [wFar, wNb] :=
  ⟨(claim_C7_partition [wFar, wNb] 50 false).1 [wNb] (by decide),
   (claim_C7_partition [wFar, wNb] 50 false).2⟩

/-- Claim C9: the sort inside `build_operons` is stable — the subsequence of
rows carrying any fixed `(contig, start, stop)` key is exactly the original
one — and `build_operons` chains exactly that sorted list, so its output is
a deterministic function of the block. -/
theorem claim_C9_stable_sort (rows : List GeneRecord) (k : String × Int × Int)
    (g : Int) (s : Bool) :
    (rows.insertionSort rowle).filter (fun r => sortKey r == k) =
        rows.filter (fun r => sortKey r == k) ∧
      build_operons rows g s = buildGo g s (rows.insertionSort rowle) [] [] :=
  ⟨insertionSort_stable_key rows k, rfl⟩

/-- Counterexample for C3 as stated: a 12-field line with a non-integer
coordinate (`1x0`) is not skipped — `parse_line` raises, and the whole run
of `blocks_by_query` aborts with the error instead of continuing and
yielding the block of the surrounding valid rows. -/
theorem claim_C3_counterexample :
    parse_line badCoordLine = .error () ∧
      blocks_by_query [goodLine1, badCoordLine, goodLine2] = .error () := by
  constructor
  · decide
  · decide

/-- Claim C3 as amended: a line with fewer than 12 fields is skipped
silently, but a line with at least 12 whitespace-delimited fields whose
coordinate field (column 8 or 9) is not parseable as an integer is fatal:
`parse_line` returns the error and `blocks_by_query`'s loop aborts at that
line, whatever state it has accumulated. -/
theorem claim_C3_amended (line : String)
    (hlen : 12 ≤ (splitWs (pyStrip line)).length)
    (hbad : pyParseInt ((splitWs (pyStrip line)).getD 7 "") = none ∨
      pyParseInt ((splitWs (pyStrip line)).getD 8 "") = none) :
    parse_line line = .error () ∧
      ∀ (ck : Option String) (cur : List GeneRecord) (rest : List String),
        blocks_by_query_go ck cur (line :: rest) = .error () := by
  have hne : pyStrip line ≠ "" := by
    intro h
    rw [h] at hlen
    simp [splitWs, splitWsAux] at hlen
  have hparse : parse_line line = .error () := by
    simp only [parse_line]
    rw [if_neg (by omega)]
    cases hp7 : pyParseInt ((splitWs (pyStrip line)).getD 7 "") with
    | none => rfl
    | some a =>
      cases hp8 : pyParseInt ((splitWs (pyStrip line)).getD 8 "") with
      | none => rfl
      | some b =>
        rcases hbad with hbad | hbad
        · rw [hp7] at hbad; cases hbad
        · rw [hp8] at hbad; cases hbad
  refine ⟨hparse, ?_⟩
  intro ck cur rest
  simp only [blocks_by_query_go]
  rw [if_neg hne, hparse]

/-- Witness for the amended C3 at the concrete bad line. -/
theorem claim_C3_witness :
    parse_line badCoordLine = .error () ∧
      blocks_by_query_go none [] [badCoordLine] = .error () :=
  ⟨(claim_C3_amended badCoordLine (by decide) (by decide)).1,
   (claim_C3_amended badCoordLine (by decide) (by decide)).2 none [] []⟩

/-- Claim C4: for every block, `main`'s loop emits exactly one record per
cluster that contains a member with the query's protein id and at least one
member with a different protein id, carrying the first member's contig, the
minimum start, maximum stop, member count, comma-joined ids and
`id:start-stop` strings in cluster order, and the fixed `"YES"` marker. -/
theorem claim_C4_outputs (g : Int) (s : Bool) (qf : String) (rows : List GeneRecord) :
    processBlock g s qf rows = specOutputs g s qf rows :=
  processBlock_eq_spec g s qf rows

/-- Claim C5: a cluster that contains the query id but no other protein id
contributes no output record — the block's output equals the output
computed from the cluster list with that cluster removed. -/
theorem claim_C5_self_only (g : Int) (s : Bool) (qf : String) (r0 : GeneRecord)
    (rest : List GeneRecord) (ops1 ops2 : List (List GeneRecord)) (op : List GeneRecord)
    (hdec : build_operons (r0 :: rest) g s = ops1 ++ op :: ops2)
    (hq : ∃ r ∈ op, r.prot_id = r0.q_id)
    (hself : ∀ r ∈ op, r.prot_id = r0.q_id) :
    processBlock g s qf (r0 :: rest) =
      ((ops1 ++ ops2).filter (fun o => o.any (fun r => r.prot_id == r0.q_id))).filterMap
        (emitCluster qf r0.q_id r0.q_species r0.assembly) := by
  have hpop : (op.any (fun r => r.prot_id == r0.q_id)) = true := by
    rcases hq with ⟨r, hr, hreq⟩
    exact List.any_eq_true.mpr ⟨r, hr, beq_iff_eq.mpr hreq⟩
  have hemit : emitCluster qf r0.q_id r0.q_species r0.assembly op = none := by
    rw [emitCluster]
    have hnil : op.filter (fun r => !(r.prot_id == r0.q_id)) = [] := by
      rw [List.filter_eq_nil_iff]
      intro r hr
      simp only [Bool.not_eq_true', beq_eq_false_iff_ne, ne_eq, Decidable.not_not]
      exact hself r hr
    simp [hnil]
  simp only [processBlock]
  rw [hdec, List.filter_append, List.filter_cons, if_pos hpop,
    List.filterMap_append, List.filterMap_cons, hemit, List.filter_append,
    List.filterMap_append]

/-- Witness for C5: the self-only cluster `[wQ]` contributes nothing; the
remaining cluster `[wFar]` does not contain the query, so the block emits
no line at all. -/
theorem claim_C5_witness :
    processBlock 50 false "Q1#1|E_coli" [wQ, wFar] =
      (([[wFar]] : List (List GeneRecord)).filter
          (fun o => o.any (fun r => r.prot_id == wQ.q_id))).filterMap
        (emitCluster "Q1#1|E_coli" wQ.q_id wQ.q_species wQ.assembly) :=
  claim_C5_self_only 50 false "Q1#1|E_coli" wQ [wFar] [] [[wFar]] [wQ]
    (by decide) (by decide) (by decide)

/-- Claim C8: every record accepted by `parse_line` has `start ≤ stop`; the
normalization step swaps the two values exactly when the input gives them
in reversed order; and consequently every member of every cluster built
from any yielded block satisfies `start ≤ stop`. -/
theorem claim_C8_start_le_stop :
    (∀ (line : String) (r : GeneRecord),
        parse_line line = .ok (some r) → r.start ≤ r.stop) ∧
      (∀ obj : GeneRecord, obj.start > obj.stop →
        (normalizeRec obj).start = obj.stop ∧ (normalizeRec obj).stop = obj.start) ∧
      ∀ (lines : List String) (bs : List (String × List GeneRecord)) (g : Int) (s : Bool),
        blocks_by_query lines = .ok bs →
        ∀ b ∈ bs, ∀ op ∈ build_operons b.2 g s, ∀ r ∈ op, r.start ≤ r.stop := by
  refine ⟨parse_line_le, fun obj hgt => by simp [normalizeRec, if_pos hgt], ?_⟩
  intro lines bs g s hbs b hb op hop r hr
  rw [blocks_by_query, blocks_go_map] at hbs
  cases hv : validRowsE lines with
  | error e => rw [hv] at hbs; cases hbs
  | ok rs =>
    rw [hv] at hbs
    simp only [Except.map, Except.ok.injEq] at hbs
    have hr2 : r ∈ b.2 := by
      have hflat : r ∈ (build_operons b.2 g s).flatten :=
        List.mem_flatten.mpr ⟨op, hop, hr⟩
      exact (build_operons_perm b.2 g s).mem_iff.mp hflat
    have hrs : r ∈ rs := by
      have : r ∈ ((blocksRows none [] rs).map Prod.snd).flatten :=
        List.mem_flatten.mpr ⟨b.2, List.mem_map.mpr ⟨b, by rw [hbs]; exact hb, rfl⟩, hr2⟩
      rwa [blocksRows_flatten] at this
    rcases validRowsE_mem lines rs hv r hrs with ⟨line, hline⟩
    exact parse_line_le line r hline

/-- Witness for C8: the reversed-coordinate line `swapLine` parses to a
record with `start ≤ stop`. -/
theorem claim_C8_witness : wRec.start ≤ wRec.stop :=
  claim_C8_start_le_stop.1 swapLine wRec (by decide)

/-- Claim C10: for a non-negative `max_gap`, a row that overlaps or abuts
the previous kept member (`next.start ≤ prev.stop`) on the same contig with
the strand check passing is always appended: across every boundary between
consecutive clusters whose adjacent members share a contig and pass the
strand check, the next cluster starts strictly after the previous stop. -/
theorem claim_C10_no_split_on_overlap (rows : List GeneRecord) (g : Int) (s : Bool)
    (hg : 0 ≤ g) :
    (build_operons rows g s).Chain' (fun c₁ c₂ =>
      ∀ a ∈ c₁.getLast?, ∀ b ∈ c₂.head?,
        a.contig = b.contig → (s = true → a.strand = b.strand) → a.stop < b.start) := by
  refine List.Chain'.imp ?_ (build_operons_boundary rows g s)
  intro c₁ c₂ hcb a ha b hb hcontig hstrand
  have hnc := hcb a ha b hb hcontig
  by_cases hle : b.start - a.stop ≤ g
  · exact absurd ⟨hle, hstrand⟩ hnc
  · omega

/-- Witness for C10: with `max_gap = 50 ≥ 0`, the boundary between the two
produced singleton clusters separates genes 800 apart, never overlapping
ones. -/
theorem claim_C10_witness :
    0 ≤ (50 : Int) ∧ wNb.stop < wFar.start := by
  refine ⟨by norm_num, ?_⟩
  have h := claim_C10_no_split_on_overlap [wNb, wFar] 50 false (by norm_num)
  rw [show build_operons [wNb, wFar] 50 false = [[wNb], [wFar]] from by decide] at h
  exact (List.chain'_pair.mp h) wNb (by simp) wFar (by simp) (by decide) (fun hx => nomatch hx)
